import Mathlib

/-!
Verification of the hydra-queue-runner scheduling core
(`src/hydra-queue-runner/state.hh`) against its natural-language
specification.

The header under verification is declaration-only; the functions whose
bodies appear in it (`Machine::supportsStep`, `RemoteResult::buildStatus`,
`Jobset::shareUsed`, `Jobset::setShares`) are embedded directly from the
source.  Components whose bodies are not part of the repository snapshot
(the dispatcher loop, the retry policy, failure propagation, ingestion)
are modelled from the specification text, as marked in their doc comments.
-/

set_option autoImplicit false

namespace Hydra

/-! ### Build status codes (`BuildStatus` enum, state.hh lines 41-55) -/

/-- The `BuildStatus` enumeration of state.hh. -/
inductive BuildStatus where
  | bsSuccess
  | bsFailed
  | bsDepFailed
  | bsAborted
  | bsCancelled
  | bsFailedWithOutput
  | bsTimedOut
  | bsCachedFailure
  | bsUnsupported
  | bsLogLimitExceeded
  | bsNarSizeLimitExceeded
  | bsNotDeterministic
  | bsBusy
deriving DecidableEq, Repr

open BuildStatus

/-- The numeric codes assigned to each `BuildStatus` value in state.hh. -/
def BuildStatus.code : BuildStatus → Nat
  | bsSuccess => 0
  | bsFailed => 1
  | bsDepFailed => 2
  | bsAborted => 3
  | bsCancelled => 4
  | bsFailedWithOutput => 6
  | bsTimedOut => 7
  | bsCachedFailure => 8
  | bsUnsupported => 9
  | bsLogLimitExceeded => 10
  | bsNarSizeLimitExceeded => 11
  | bsNotDeterministic => 12
  | bsBusy => 100

/-! ### `RemoteResult` (state.hh lines 69-90) -/

/-- The fields of `RemoteResult` relevant to status classification. -/
structure RemoteResult where
  stepStatus : BuildStatus
  canRetry : Bool
  isCached : Bool
  canCache : Bool
deriving DecidableEq, Repr

/-- `RemoteResult::buildStatus` (state.hh lines 84-87):
`return stepStatus == bsCachedFailure ? bsFailed : stepStatus;`. -/
def RemoteResult.buildStatus (r : RemoteResult) : BuildStatus :=
  if r.stepStatus = bsCachedFailure then bsFailed else r.stepStatus

/-! ### Machine capability matching (`Machine::supportsStep`, state.hh lines 269-294) -/

/-- The step fields consulted by `Machine::supportsStep`: the derivation
platform (`drv->platform`), the required system features and the
`preferLocalBuild` flag. -/
structure StepSpec where
  platform : String
  requiredSystemFeatures : List String
  preferLocalBuild : Bool
deriving DecidableEq, Repr

/-- The machine fields consulted by `Machine::supportsStep`: supported
system types, mandatory features and supported features (inherited from
`nix::Machine`). -/
structure MachineSpec where
  systemTypes : List String
  mandatoryFeatures : List String
  supportedFeatures : List String
deriving DecidableEq, Repr

/-- `Machine::supportsStep` (state.hh lines 269-294), with
`nix::settings.thisSystem` passed as the parameter `thisSystem`.
The three early-return loops of the source become three boolean
conditions combined in the same order. -/
def supportsStep (thisSystem : String) (m : MachineSpec) (step : StepSpec) : Bool :=
  if ¬ m.systemTypes.contains
      (if step.platform = "builtin" then thisSystem else step.platform) then
    false
  else if m.mandatoryFeatures.any (fun f =>
      ¬ step.requiredSystemFeatures.contains f
        ∧ ¬ (f = "local" ∧ step.preferLocalBuild)) then
    false
  else if step.requiredSystemFeatures.any (fun f =>
      ¬ m.supportedFeatures.contains f) then
    false
  else
    true

/-- Unfolding of `supportsStep` into its three boolean conditions. -/
lemma supportsStep_eq_true_iff (thisSystem : String) (m : MachineSpec) (s : StepSpec) :
    supportsStep thisSystem m s = true ↔
      (m.systemTypes.contains
          (if s.platform = "builtin" then thisSystem else s.platform) = true
        ∧ m.mandatoryFeatures.any (fun f =>
            ¬ s.requiredSystemFeatures.contains f
              ∧ ¬ (f = "local" ∧ s.preferLocalBuild)) = false
        ∧ s.requiredSystemFeatures.any (fun f =>
            ¬ m.supportedFeatures.contains f) = false) := by
  unfold supportsStep
  by_cases h1 : m.systemTypes.contains
      (if s.platform = "builtin" then thisSystem else s.platform) = true
  · by_cases h2 : m.mandatoryFeatures.any (fun f =>
        ¬ s.requiredSystemFeatures.contains f
          ∧ ¬ (f = "local" ∧ s.preferLocalBuild)) = true
    · simp [h1, h2]
    · by_cases h3 : s.requiredSystemFeatures.any (fun f =>
          ¬ m.supportedFeatures.contains f) = true
      · simp [h1, h2, h3]
      · simp [h1, h2, h3]
  · simp [h1]

end Hydra

namespace Hydra

open BuildStatus

/-! ### Theorems for claims C1 and C7 -/

/-- C1: `supportsStep(step, machine)` returns true iff (a) the step's
platform tag (or the local system's platform when the platform is
"builtin") is among the machine's system types, (b) every mandatory
feature of the machine is required by the step, except that the mandatory
feature "local" is also satisfied by a step with `preferLocalBuild`, and
(c) every feature required by the step is supported by the machine.
In particular a step requiring the feature "benchmark" is never supported
by a machine that does not list "benchmark" among its supported
features. -/
theorem supportsStep_spec (thisSystem : String) (m : MachineSpec) (s : StepSpec)
    (m2 : MachineSpec) (y : StepSpec) :
    (supportsStep thisSystem m s = true ↔
      ((if s.platform = "builtin" then thisSystem else s.platform) ∈ m.systemTypes
        ∧ (∀ f ∈ m.mandatoryFeatures,
            f ∈ s.requiredSystemFeatures ∨ (f = "local" ∧ s.preferLocalBuild = true))
        ∧ (∀ f ∈ s.requiredSystemFeatures, f ∈ m.supportedFeatures)))
    ∧ ("benchmark" ∈ y.requiredSystemFeatures →
        "benchmark" ∉ m2.supportedFeatures →
        supportsStep thisSystem m2 y = false) := by
  have hcont : ∀ (l : List String) (a : String), l.contains a = true ↔ a ∈ l :=
    fun _ _ => List.elem_iff
  have hB : ∀ (mm : MachineSpec) (ss : StepSpec),
      (mm.mandatoryFeatures.any (fun f =>
          ¬ ss.requiredSystemFeatures.contains f
            ∧ ¬ (f = "local" ∧ ss.preferLocalBuild)) = false) ↔
        (∀ f ∈ mm.mandatoryFeatures,
          f ∈ ss.requiredSystemFeatures ∨ (f = "local" ∧ ss.preferLocalBuild = true)) := by
    intro mm ss
    rw [← Bool.not_eq_true, List.any_eq_true]
    push_neg
    constructor
    · intro h f hf
      have hnot := h f hf
      simp only [ne_eq, decide_eq_true_eq, hcont] at hnot
      tauto
    · intro h f hf
      have hor := h f hf
      simp only [ne_eq, decide_eq_true_eq, hcont]
      tauto
  have hC : ∀ (mm : MachineSpec) (ss : StepSpec),
      (ss.requiredSystemFeatures.any (fun f =>
          ¬ mm.supportedFeatures.contains f) = false) ↔
        (∀ f ∈ ss.requiredSystemFeatures, f ∈ mm.supportedFeatures) := by
    intro mm ss
    rw [← Bool.not_eq_true, List.any_eq_true]
    push_neg
    constructor
    · intro h f hf
      have hnot := h f hf
      simp only [ne_eq, decide_eq_true_eq, hcont] at hnot
      tauto
    · intro h f hf
      have hmem := h f hf
      simp only [ne_eq, decide_eq_true_eq, hcont]
      tauto
  constructor
  · rw [supportsStep_eq_true_iff]
    rw [hB m s, hC m s, List.elem_iff]
  · intro hreq hsup
    rw [← Bool.not_eq_true, supportsStep_eq_true_iff]
    rintro ⟨-, -, h3⟩
    rw [hC m2 y] at h3
    exact hsup (h3 "benchmark" hreq)

/-- Witness for `supportsStep_spec` at a concrete machine and step. -/
theorem supportsStep_spec_witness :
    (supportsStep "x86_64-linux"
        ⟨["x86_64-linux"], ["local"], ["big"]⟩
        ⟨"builtin", ["big"], true⟩ = true ↔
      ((if ("builtin" : String) = "builtin" then "x86_64-linux" else "builtin")
          ∈ ["x86_64-linux"]
        ∧ (∀ f ∈ ["local"],
            f ∈ ["big"] ∨ (f = "local" ∧ true = true))
        ∧ (∀ f ∈ ["big"], f ∈ ["big"])))
    ∧ ("benchmark" ∈ ["benchmark"] →
        "benchmark" ∉ ["big"] →
        supportsStep "x86_64-linux" ⟨["x86_64-linux"], [], ["big"]⟩
          ⟨"x86_64-linux", ["benchmark"], false⟩ = false) :=
  supportsStep_spec "x86_64-linux"
    ⟨["x86_64-linux"], ["local"], ["big"]⟩
    ⟨"builtin", ["big"], true⟩
    ⟨["x86_64-linux"], [], ["big"]⟩
    ⟨"x86_64-linux", ["benchmark"], false⟩

/-- C7: `RemoteResult::buildStatus` maps the step-only status
`bsCachedFailure` to `bsFailed` and is the identity on every other
`BuildStatus` value. -/
theorem buildStatus_spec (r : RemoteResult) :
    (r.stepStatus = bsCachedFailure → r.buildStatus = bsFailed)
    ∧ (r.stepStatus ≠ bsCachedFailure → r.buildStatus = r.stepStatus) := by
  constructor
  · intro h; simp [RemoteResult.buildStatus, h]
  · intro h; simp [RemoteResult.buildStatus, h]

/-- Witness for `buildStatus_spec` at concrete results. -/
theorem buildStatus_spec_witness :
    ((⟨bsCachedFailure, false, false, false⟩ : RemoteResult).stepStatus = bsCachedFailure →
      (⟨bsCachedFailure, false, false, false⟩ : RemoteResult).buildStatus = bsFailed)
    ∧ ((⟨bsCachedFailure, false, false, false⟩ : RemoteResult).stepStatus ≠ bsCachedFailure →
      (⟨bsCachedFailure, false, false, false⟩ : RemoteResult).buildStatus
        = (⟨bsCachedFailure, false, false, false⟩ : RemoteResult).stepStatus) :=
  buildStatus_spec ⟨bsCachedFailure, false, false, false⟩

end Hydra

namespace Hydra

/-! ### Jobset fair-share state (state.hh lines 97-132) -/

/-- The scalar mutable state of a `Jobset`: `seconds` (CPU seconds
consumed inside the scheduling window) and `shares` (configured weight).
state.hh lines 108-109 initialise `seconds{0}` and `shares{1}`. -/
structure JobsetState where
  seconds : Nat
  shares : Nat
deriving DecidableEq, Repr

/-- The initial jobset state (`seconds{0}`, `shares{1}`). -/
def initJobset : JobsetState := { seconds := 0, shares := 1 }

/-- `Jobset::shareUsed` (state.hh lines 116-119):
`(double) seconds / shares`, idealised over the rationals. -/
def shareUsed (σ : JobsetState) : ℚ := (σ.seconds : ℚ) / (σ.shares : ℚ)

/-- `Jobset::setShares` (state.hh lines 121-125):
`assert(shares_ > 0); shares = shares_;`.  The argument is a C `int`
whose positive values embed exactly into the unsigned field. -/
def setShares (σ : JobsetState) (shares_ : Int) : JobsetState :=
  { σ with shares := shares_.toNat }

/-- Transitions of a jobset's scalar state.  `set` is `setShares`
carrying its assertion `shares_ > 0` as a precondition.  `touch` covers
`Jobset::addStep` and `Jobset::pruneSteps` (bodies not in the repository
snapshot): per §3 of the spec they maintain `seconds` and the recorded
step durations and never write `shares`, so they are modelled as an
arbitrary update of `seconds` leaving `shares` unchanged. -/
inductive JobsetStep : JobsetState → JobsetState → Prop where
  | set (σ : JobsetState) (shares_ : Int) (h : 0 < shares_) :
      JobsetStep σ (setShares σ shares_)
  | touch (σ : JobsetState) (s : Nat) :
      JobsetStep σ { σ with seconds := s }

/-- Jobset states reachable from initialisation. -/
def JobsetReachable (σ : JobsetState) : Prop :=
  Relation.ReflTransGen JobsetStep initJobset σ

/-- C9: in every reachable jobset state, `shares ≥ 1` (it is initialised
to 1 and `setShares` requires a positive argument), so
`shareUsed() = seconds/shares` never divides by zero: the divisor is
nonzero and the quotient exactly satisfies `shareUsed * shares =
seconds`. -/
theorem shares_positive (σ : JobsetState) (h : JobsetReachable σ) :
    1 ≤ σ.shares ∧ ((σ.shares : ℚ) ≠ 0
      ∧ shareUsed σ * (σ.shares : ℚ) = (σ.seconds : ℚ)) := by
  have hmain : 1 ≤ σ.shares := by
    induction h with
    | refl => exact le_refl 1
    | tail _ hstep ih =>
      cases hstep with
      | set shares_ hpos =>
        have h1 : 1 ≤ shares_.toNat := by omega
        simpa [setShares] using h1
      | touch s => simpa using ih
  have hne : (σ.shares : ℚ) ≠ 0 := Nat.cast_ne_zero.mpr (by omega)
  exact ⟨hmain, hne, div_mul_cancel₀ _ hne⟩

/-- Witness for `shares_positive` at the initial state. -/
theorem shares_positive_witness :
    1 ≤ initJobset.shares ∧ ((initJobset.shares : ℚ) ≠ 0
      ∧ shareUsed initJobset * (initJobset.shares : ℚ) = (initJobset.seconds : ℚ)) :=
  shares_positive initJobset Relation.ReflTransGen.refl

/-! ### Unsupported-step abortion (state.hh lines 321-322 and 550) -/

/-- `State::maxUnsupportedTime` (state.hh lines 321-322): "Time in
seconds before unsupported build steps are aborted", a non-configurable
compile-time constant equal to 0. -/
def maxUnsupportedTime : Nat := 0

/-- Modelled from the spec: the body of `State::abortUnsupported`
(declared at state.hh line 550) is not in the repository snapshot.
§4.6 of the spec: "A step whose required features/platform match no
currently known machine for longer than `maxUnsupportedTime` (if
nonzero) is aborted as `unsupported` rather than waiting forever." -/
def shouldAbortUnsupported (waitedSinceSupported : Nat) : Bool :=
  maxUnsupportedTime ≠ 0 ∧ maxUnsupportedTime ≤ waitedSinceSupported

/-- Modelled from the spec: one `abortUnsupported` pass over the queue of
steps matched by no machine (step id paired with how long it has been
unsupported, in seconds); it returns the steps given status
`bsUnsupported` and the queue of steps left waiting. -/
def abortUnsupportedPass (queue : List (Nat × Nat)) :
    List (Nat × BuildStatus) × List (Nat × Nat) :=
  ((queue.filter (fun p => shouldAbortUnsupported p.2)).map
      (fun p => (p.1, BuildStatus.bsUnsupported)),
   queue.filter (fun p => ¬ shouldAbortUnsupported p.2))

/-- C10: because `maxUnsupportedTime = 0` in the code as shipped, the
unsupported-step abort path is disabled: an `abortUnsupported` pass
assigns `bsUnsupported` to no step, however long the steps have waited,
and leaves the whole queue waiting. -/
theorem abortUnsupported_disabled (queue : List (Nat × Nat)) :
    (abortUnsupportedPass queue).1 = [] ∧ (abortUnsupportedPass queue).2 = queue := by
  have hfalse : ∀ w : Nat, shouldAbortUnsupported w = false := by
    intro w
    simp [shouldAbortUnsupported, maxUnsupportedTime]
  constructor
  · have : queue.filter (fun p => shouldAbortUnsupported p.2) = [] := by
      apply List.filter_eq_nil_iff.mpr
      intro p _
      simp [hfalse p.2]
    simp [abortUnsupportedPass, this]
  · apply List.filter_eq_self.mpr
    intro p _
    simp [hfalse p.2]

end Hydra

namespace Hydra

/-! ### Retry policy (state.hh lines 198-202 and 316-318) -/

/-- `State::maxTries` (state.hh line 316). -/
def maxTries : Nat := 5

/-- `State::retryInterval`, in seconds (state.hh line 317). -/
def retryInterval : Nat := 60

/-- `State::retryBackoff` (state.hh line 318, the float `3.0`; exact on
the small powers involved, so modelled as the natural number 3). -/
def retryBackoff : Nat := 3

/-- The backoff delay scheduled by the attempt that set `tries` to the
given value: `retryInterval * retryBackoff ^ (tries - 1)`. -/
def retryDelay (tries : Nat) : Nat := retryInterval * retryBackoff ^ (tries - 1)

/-- The per-step retry bookkeeping of `Step::State` (state.hh lines
198-202): `tries` ("Number of times we've tried this step") and `after`
("Point in time after which the step can be retried"), together with
flags recording that the step ended in a definitive failure or finished
successfully. -/
structure RetryState where
  tries : Nat
  after : Nat
  failed : Bool
  finishedOk : Bool
deriving DecidableEq, Repr

/-- A fresh step: never tried, not failed, not finished. -/
def initRetry : RetryState :=
  { tries := 0, after := 0, failed := false, finishedOk := false }

/-- Classification of one attempt's outcome for the retry policy. -/
inductive Outcome where
  | success
  | transientFail
  | definitiveFail
deriving DecidableEq, Repr

/-- Modelled from the spec: the outcome handling of one attempt (§4.6;
the builder body is not in the repository snapshot): "increment `tries`;
... If status is transient/aborted and retryable: if `tries < maxTries`,
set `after = now + retryInterval * retryBackoff^(tries-1)` (exponential
backoff) and re-enqueue the step as runnable once `after` elapses;
otherwise treat as a definitive failure." -/
def applyAttempt (now : Nat) (o : Outcome) (σ : RetryState) : RetryState :=
  let t := σ.tries + 1
  match o with
  | .success => { σ with tries := t, finishedOk := true }
  | .definitiveFail => { σ with tries := t, failed := true }
  | .transientFail =>
      if t < maxTries then
        { tries := t, after := now + retryDelay t, failed := false, finishedOk := false }
      else
        { σ with tries := t, failed := true }

/-- A step is attempted only while it is neither definitively failed nor
finished. -/
inductive RetryStep : RetryState → RetryState → Prop where
  | attempt (σ : RetryState) (now : Nat) (o : Outcome)
      (hf : σ.failed = false) (ho : σ.finishedOk = false) :
      RetryStep σ (applyAttempt now o σ)

/-- Retry states reachable from a fresh step. -/
def RetryReachable (σ : RetryState) : Prop :=
  Relation.ReflTransGen RetryStep initRetry σ

/-- One step of the retry state machine preserves the tries bound. -/
lemma retry_step_invariant (σ σ2 : RetryState) (hstep : RetryStep σ σ2)
    (ih : σ.tries ≤ maxTries
      ∧ (σ.tries = maxTries → σ.failed = true ∨ σ.finishedOk = true)) :
    σ2.tries ≤ maxTries
      ∧ (σ2.tries = maxTries → σ2.failed = true ∨ σ2.finishedOk = true) := by
  cases hstep with
  | attempt now o hf ho =>
    have hlt : σ.tries < maxTries := by
      rcases ih with ⟨hle, hend⟩
      rcases Nat.lt_or_ge σ.tries maxTries with hlt | hge
      · exact hlt
      · have heq : σ.tries = maxTries := le_antisymm hle hge
        rcases hend heq with hbad | hbad
        · rw [hf] at hbad; cases hbad
        · rw [ho] at hbad; cases hbad
    cases o with
    | success => constructor <;> simp [applyAttempt] <;> omega
    | definitiveFail => constructor <;> simp [applyAttempt] <;> omega
    | transientFail =>
      by_cases hc : σ.tries + 1 < maxTries
      · constructor <;> simp [applyAttempt, hc] <;> omega
      · constructor <;> simp [applyAttempt, hc] <;> omega

/-- A retry state's `tries` counter is bounded, and hitting the bound
ends the step. -/
lemma retry_invariant (σ : RetryState) (h : RetryReachable σ) :
    σ.tries ≤ maxTries
      ∧ (σ.tries = maxTries → σ.failed = true ∨ σ.finishedOk = true) := by
  induction h with
  | refl => simp [initRetry, maxTries]
  | tail _ hstep ih => exact retry_step_invariant _ _ hstep ih

/-- C4: (1) in every reachable retry state `tries ≤ maxTries` (= 5);
(2) a retryable transient outcome with `tries < maxTries` (after the
increment) schedules the retry at `after = now + retryInterval *
retryBackoff^(tries-1)` (with `retryInterval = 60`, `retryBackoff = 3`)
and is not a definitive failure; (3) successive retry delays are
strictly increasing; (4) the transient failure that makes `tries` reach
`maxTries` is treated as a definitive failure: it sets `failed` and
schedules no new retry time. -/
theorem retry_policy_spec (σ : RetryState) (now n : Nat)
    (hre : RetryReachable σ) (hn : 1 ≤ n) :
    σ.tries ≤ maxTries
      ∧ (σ.tries + 1 < maxTries →
          (applyAttempt now .transientFail σ).after
              = now + retryInterval * retryBackoff ^ (σ.tries + 1 - 1)
            ∧ (applyAttempt now .transientFail σ).failed = false)
      ∧ retryDelay n < retryDelay (n + 1)
      ∧ (maxTries ≤ σ.tries + 1 →
          (applyAttempt now .transientFail σ).failed = true
            ∧ (applyAttempt now .transientFail σ).after = σ.after) := by
  refine ⟨(retry_invariant σ hre).1, ?_, ?_, ?_⟩
  · intro hlt
    constructor
    · simp [applyAttempt, hlt, retryDelay]
    · simp [applyAttempt, hlt]
  · have hpow : retryBackoff ^ (n - 1) < retryBackoff ^ (n + 1 - 1) := by
      apply Nat.pow_lt_pow_right
      · simp [retryBackoff]
      · omega
    have h60 : 0 < retryInterval := by simp [retryInterval]
    exact mul_lt_mul_of_pos_left hpow h60
  · intro hge
    have hnlt : ¬ σ.tries + 1 < maxTries := by omega
    constructor
    · simp [applyAttempt, hnlt]
    · simp [applyAttempt, hnlt]

/-- Witness for `retry_policy_spec` at a fresh step. -/
theorem retry_policy_spec_witness :
    initRetry.tries ≤ maxTries
      ∧ (initRetry.tries + 1 < maxTries →
          (applyAttempt 100 .transientFail initRetry).after
              = 100 + retryInterval * retryBackoff ^ (initRetry.tries + 1 - 1)
            ∧ (applyAttempt 100 .transientFail initRetry).failed = false)
      ∧ retryDelay 1 < retryDelay (1 + 1)
      ∧ (maxTries ≤ initRetry.tries + 1 →
          (applyAttempt 100 .transientFail initRetry).failed = true
            ∧ (applyAttempt 100 .transientFail initRetry).after = initRetry.after) :=
  retry_policy_spec initRetry 100 1 Relation.ReflTransGen.refl (by decide)

end Hydra

namespace Hydra

/-! ### The scheduling graph engine (state.hh: `Step::State::deps`/`rdeps`
lines 186-189, `State::runnable` lines 343-345, `State::makeRunnable`
line 541, `State::failStep` lines 528-534, `getDependents` line 237).

All of these are declarations whose bodies are not in the repository
snapshot, so the engine is modelled from the specification: steps with
zero unbuilt dependencies enter the runnable queue (§4.1); the
dispatcher atomically removes a runnable step from the queue when
reserving it (§4.3); on success every dependent whose remaining unbuilt
dependencies reach zero becomes runnable, and on a definitive failure
the failure propagates down the `rdeps` closure (§4.6). -/

/-- Scheduling status of one step.  `runnable` means "in the runnable
queue"; `building` means dispatched to a machine; `failed` is a
definitive failure of the step itself; `depFailed` a failure inherited
from a dependency. -/
inductive SStatus where
  | waiting
  | runnable
  | building
  | finished
  | failed
  | depFailed
deriving DecidableEq, Repr

/-- A finite dependency graph on `n` steps: `deps t` is the set of steps
`t` needs (`Step::State::deps`); the reverse edges (`Step::State::rdeps`)
are its inverse. -/
structure StepGraph (n : Nat) where
  deps : Fin n → Finset (Fin n)

/-- `rdepRel g s t`: `t` is a direct reverse-dependent of `s`, i.e. `s ∈
deps t`. -/
def rdepRel {n : Nat} (g : StepGraph n) (s t : Fin n) : Prop := s ∈ g.deps t

instance {n : Nat} (g : StepGraph n) (s t : Fin n) : Decidable (rdepRel g s t) := by
  unfold rdepRel; infer_instance

/-- One expansion of a set of steps by their direct reverse-dependents
(one level of the `rdeps` traversal of `getDependents`). -/
def expandR {n : Nat} (g : StepGraph n) (C : Finset (Fin n)) : Finset (Fin n) :=
  C ∪ Finset.univ.filter (fun t => ∃ s ∈ C, s ∈ g.deps t)

/-- The steps reachable from `S` via `rdeps`, computed by a bounded
traversal (`n` expansions always reach the fixpoint, as the visited-set
in `getDependents` does). -/
def rdepsClosure {n : Nat} (g : StepGraph n) (S : Fin n) : Finset (Fin n) :=
  (expandR g)^[n] {S}

lemma subset_expandR {n : Nat} (g : StepGraph n) (C : Finset (Fin n)) :
    C ⊆ expandR g C :=
  Finset.subset_union_left

lemma mem_expandR_of_dep {n : Nat} (g : StepGraph n) (C : Finset (Fin n))
    {s t : Fin n} (hs : s ∈ C) (hdep : s ∈ g.deps t) : t ∈ expandR g C := by
  apply Finset.mem_union_right
  rw [Finset.mem_filter]
  exact ⟨Finset.mem_univ t, s, hs, hdep⟩

lemma iterate_expandR_mono {n : Nat} (g : StepGraph n) (C : Finset (Fin n))
    (k : Nat) : (expandR g)^[k] C ⊆ (expandR g)^[k + 1] C := by
  rw [Function.iterate_succ_apply']
  exact subset_expandR g _

lemma iterate_expandR_stable {n : Nat} (g : StepGraph n) (C : Finset (Fin n))
    (k : Nat) (h : (expandR g)^[k] C = (expandR g)^[k + 1] C) :
    ∀ m, (expandR g)^[k + m] C = (expandR g)^[k] C := by
  intro m
  induction m with
  | zero => rfl
  | succ m ih =>
    have hidx : k + (m + 1) = (k + m) + 1 := by omega
    rw [hidx, Function.iterate_succ_apply', ih]
    calc expandR g ((expandR g)^[k] C)
        = (expandR g)^[k + 1] C := (Function.iterate_succ_apply' (expandR g) k C).symm
      _ = (expandR g)^[k] C := h.symm

/-- After `n` expansions of a singleton the closure is a fixpoint: the
strictly increasing chain of subsets of `Fin n` must stabilise within
`n` steps. -/
lemma expandR_rdepsClosure {n : Nat} (g : StepGraph n) (S : Fin n) :
    expandR g (rdepsClosure g S) = rdepsClosure g S := by
  by_cases hex : ∃ k, k ≤ n ∧ (expandR g)^[k] {S} = (expandR g)^[k + 1] {S}
  · obtain ⟨k, hk, heq⟩ := hex
    have hstab := iterate_expandR_stable g {S} k heq
    have h1 : rdepsClosure g S = (expandR g)^[k] {S} := by
      have := hstab (n - k)
      rw [show k + (n - k) = n by omega] at this
      exact this
    have h2 : expandR g (rdepsClosure g S) = (expandR g)^[k + 1] {S} := by
      rw [h1]
      exact (Function.iterate_succ_apply' (expandR g) k {S}).symm
    rw [h2, ← heq, h1]
  · exfalso
    push_neg at hex
    have hgrow : ∀ k, k ≤ n → k + 1 ≤ ((expandR g)^[k] {S}).card := by
      intro k
      induction k with
      | zero => intro _; simp
      | succ k ih =>
        intro hk1
        have hk : k ≤ n := by omega
        have hne := hex k hk
        have hss : (expandR g)^[k] {S} ⊂ (expandR g)^[k + 1] {S} :=
          ssubset_of_subset_of_ne (iterate_expandR_mono g {S} k) hne
        have hcard := Finset.card_lt_card hss
        have := ih hk
        omega
    have h1 := hgrow n (le_refl n)
    have h2 : ((expandR g)^[n] {S}).card ≤ n := by
      have hsub := Finset.card_le_card
        (Finset.subset_univ ((expandR g)^[n] {S}))
      simpa using hsub
    omega

lemma self_mem_rdepsClosure {n : Nat} (g : StepGraph n) (S : Fin n) :
    S ∈ rdepsClosure g S := by
  have hsub : ∀ k, ({S} : Finset (Fin n)) ⊆ (expandR g)^[k] {S} := by
    intro k
    induction k with
    | zero => exact subset_refl _
    | succ k ih => exact subset_trans ih (iterate_expandR_mono g {S} k)
  exact hsub n (Finset.mem_singleton_self S)

lemma rdepsClosure_closed {n : Nat} (g : StepGraph n) {S s t : Fin n}
    (hs : s ∈ rdepsClosure g S) (hdep : s ∈ g.deps t) :
    t ∈ rdepsClosure g S := by
  rw [← expandR_rdepsClosure g S]
  exact mem_expandR_of_dep g _ hs hdep

/-- Every step transitively reachable from `S` via `rdeps` lies in the
computed closure. -/
lemma reach_subset_rdepsClosure {n : Nat} (g : StepGraph n) {S u : Fin n}
    (h : Relation.ReflTransGen (rdepRel g) S u) : u ∈ rdepsClosure g S := by
  induction h with
  | refl => exact self_mem_rdepsClosure g S
  | tail _ hbc ih => exact rdepsClosure_closed g ih hbc

end Hydra

namespace Hydra

/-- The engine's view of the graph: one status per step. -/
def EState (n : Nat) := Fin n → SStatus

/-- All of a step's dependencies have finished successfully. -/
def DepsFinished {n : Nat} (g : StepGraph n) (σ : EState n) (t : Fin n) : Prop :=
  ∀ d ∈ g.deps t, σ d = SStatus.finished

instance {n : Nat} (g : StepGraph n) (σ : EState n) (t : Fin n) :
    Decidable (DepsFinished g σ t) := by
  unfold DepsFinished; infer_instance

/-- Modelled from the spec (§4.6, `State::makeRunnable`): after a step
finishes, every waiting step whose remaining unbuilt dependencies just
reached zero moves into the runnable queue. -/
def promote {n : Nat} (g : StepGraph n) (σ : EState n) : EState n :=
  fun u =>
    if σ u = SStatus.waiting ∧ DepsFinished g σ u then SStatus.runnable else σ u

/-- Modelled from the spec (§4.6, `State::failStep` with
`getDependents`): a definitive failure of `t` marks `t` failed and every
other step in the `rdeps` closure `depFailed`, in one downward pass. -/
def applyFail {n : Nat} (g : StepGraph n) (t : Fin n) (σ : EState n) : EState n :=
  fun u =>
    if u = t then SStatus.failed
    else if u ∈ rdepsClosure g t then SStatus.depFailed
    else σ u

/-- Modelled from the spec (§4.1): ingestion appends steps with zero
unbuilt dependencies to the runnable queue; the rest wait. -/
def initEState {n : Nat} (g : StepGraph n) : EState n :=
  fun u => if g.deps u = ∅ then SStatus.runnable else SStatus.waiting

/-- Modelled from the spec: the transitions of the scheduling engine
visible to the runnable queue.  `dispatch` is the dispatcher reserving a
runnable step (§4.3, removing it from the queue); `succeed` and `fail`
fold one attempt's definitive outcome back into the graph (§4.6). -/
inductive EngineStep {n : Nat} (g : StepGraph n) : EState n → EState n → Prop where
  | dispatch (σ : EState n) (t : Fin n) (h : σ t = SStatus.runnable) :
      EngineStep g σ (Function.update σ t SStatus.building)
  | succeed (σ : EState n) (t : Fin n) (h : σ t = SStatus.building) :
      EngineStep g σ (promote g (Function.update σ t SStatus.finished))
  | fail (σ : EState n) (t : Fin n) (h : σ t = SStatus.building) :
      EngineStep g σ (applyFail g t σ)

/-- Engine states reachable from ingestion of the graph. -/
def EngineReachable {n : Nat} (g : StepGraph n) (σ : EState n) : Prop :=
  Relation.ReflTransGen (EngineStep g) (initEState g) σ

/-- The dependency invariant: every step that is runnable, building or
finished has all its dependencies finished. -/
def EngineInv {n : Nat} (g : StepGraph n) (σ : EState n) : Prop :=
  ∀ t, (σ t = SStatus.runnable ∨ σ t = SStatus.building ∨ σ t = SStatus.finished) →
    DepsFinished g σ t

lemma promote_eq_of_finished {n : Nat} (g : StepGraph n) (σ : EState n)
    {d : Fin n} (h : σ d = SStatus.finished) :
    promote g σ d = SStatus.finished := by
  unfold promote
  rw [if_neg, h]
  rw [h]
  simp

lemma engineInv_init {n : Nat} (g : StepGraph n) : EngineInv g (initEState g) := by
  intro t ht d hd
  unfold initEState at ht ⊢
  by_cases hdep : g.deps t = ∅
  · rw [hdep] at hd
    cases hd
  · rcases ht with h | h | h <;> rw [if_neg hdep] at h <;> cases h

lemma engineInv_step {n : Nat} (g : StepGraph n) (σ σ2 : EState n)
    (hstep : EngineStep g σ σ2) (hinv : EngineInv g σ) : EngineInv g σ2 := by
  cases hstep with
  | dispatch t ht =>
    intro u hu d hd
    have hdr : ∀ e : Fin n, σ e = SStatus.finished →
        Function.update σ t SStatus.building e = SStatus.finished := by
      intro e he
      have hne : e ≠ t := by intro hcontra; rw [hcontra, ht] at he; cases he
      rw [Function.update_apply, if_neg hne]; exact he
    by_cases hut : u = t
    · subst hut
      exact hdr d (hinv u (Or.inl ht) d hd)
    · rw [Function.update_apply, if_neg hut] at hu
      exact hdr d (hinv u hu d hd)
  | succeed t ht =>
    intro u hu d hd
    have hkeep : ∀ e : Fin n, Function.update σ t SStatus.finished e = SStatus.finished →
        promote g (Function.update σ t SStatus.finished) e = SStatus.finished :=
      fun e he => promote_eq_of_finished g _ he
    have hfin : ∀ e : Fin n, σ e = SStatus.finished →
        Function.update σ t SStatus.finished e = SStatus.finished := by
      intro e he
      rw [Function.update_apply]
      split <;> [rfl; exact he]
    by_cases hprom : Function.update σ t SStatus.finished u = SStatus.waiting
        ∧ DepsFinished g (Function.update σ t SStatus.finished) u
    · exact hkeep d (hprom.2 d hd)
    · have hu2 : promote g (Function.update σ t SStatus.finished) u
          = Function.update σ t SStatus.finished u := by
        unfold promote
        rw [if_neg hprom]
      rw [hu2] at hu
      by_cases hut : u = t
      · subst hut
        exact hkeep d (hfin d (hinv u (Or.inr (Or.inl ht)) d hd))
      · rw [Function.update_apply, if_neg hut] at hu
        exact hkeep d (hfin d (hinv u hu d hd))
  | fail t ht =>
    intro u hu d hd
    have hut : u ≠ t := by
      intro hcontra
      subst hcontra
      unfold applyFail at hu
      rw [if_pos rfl] at hu
      rcases hu with h | h | h <;> cases h
    have huc : u ∉ rdepsClosure g t := by
      intro hmem
      unfold applyFail at hu
      rw [if_neg hut, if_pos hmem] at hu
      rcases hu with h | h | h <;> cases h
    have hu2 : applyFail g t σ u = σ u := by
      unfold applyFail
      rw [if_neg hut, if_neg huc]
    rw [hu2] at hu
    have hσd : σ d = SStatus.finished := hinv u hu d hd
    have hdc : d ∉ rdepsClosure g t := by
      intro hmem
      exact huc (rdepsClosure_closed g hmem hd)
    have hdt : d ≠ t := by
      intro hcontra
      exact hdc (hcontra ▸ self_mem_rdepsClosure g t)
    unfold applyFail
    rw [if_neg hdt, if_neg hdc]
    exact hσd

lemma engineInv_reachable {n : Nat} (g : StepGraph n) (σ : EState n)
    (h : EngineReachable g σ) : EngineInv g σ := by
  induction h with
  | refl => exact engineInv_init g
  | tail _ hstep ih => exact engineInv_step g _ _ hstep ih

end Hydra

namespace Hydra

/-- C2 (amended): in every reachable engine state, a step in the
runnable queue has all its dependencies finished successfully; in
particular a step with a non-empty `deps` set whose members are not all
finished never appears in the runnable queue.  (The converse direction
of the original claim fails: see the counterexample.) -/
theorem runnable_deps_finished {n : Nat} (g : StepGraph n) (σ : EState n)
    (t : Fin n) (hre : EngineReachable g σ) :
    (σ t = SStatus.runnable → ∀ d ∈ g.deps t, σ d = SStatus.finished)
    ∧ (g.deps t ≠ ∅ → ¬ (∀ d ∈ g.deps t, σ d = SStatus.finished) →
        σ t ≠ SStatus.runnable) := by
  have hinv := engineInv_reachable g σ hre
  constructor
  · intro hr
    exact hinv t (Or.inl hr)
  · intro _ hnot hr
    exact hnot (hinv t (Or.inl hr))

/-- The one-step graph used to settle C2: a single step with no
dependencies. -/
def cexGraph : StepGraph 1 := ⟨fun _ => ∅⟩

/-- The state of `cexGraph` after the dispatcher reserves step 0:
the step is building, no longer in the runnable queue. -/
def cexDispatched : EState 1 :=
  Function.update (initEState cexGraph) 0 SStatus.building

/-- Counterexample to C2 as stated: "S is in the runnable queue if and
only if every step in S.deps has finished" fails in the reachable state
where step 0 (with no dependencies, hence with all of its dependencies
trivially finished) has been dispatched and is building: it is not in
the runnable queue. -/
theorem runnable_iff_counterexample :
    ¬ (∀ σ : EState 1, EngineReachable cexGraph σ →
        ∀ t, (σ t = SStatus.runnable ↔
          ∀ d ∈ cexGraph.deps t, σ d = SStatus.finished)) := by
  intro hclaim
  have hinit : initEState cexGraph 0 = SStatus.runnable := by
    unfold initEState cexGraph
    simp
  have hre : EngineReachable cexGraph cexDispatched :=
    Relation.ReflTransGen.single (EngineStep.dispatch (initEState cexGraph) 0 hinit)
  have hvac : ∀ d ∈ cexGraph.deps 0, cexDispatched d = SStatus.finished := by
    intro d hd
    unfold cexGraph at hd
    cases hd
  have hr : cexDispatched 0 = SStatus.runnable := (hclaim cexDispatched hre 0).mpr hvac
  have hb : cexDispatched 0 = SStatus.building := by
    unfold cexDispatched
    rw [Function.update_apply, if_pos rfl]
  rw [hb] at hr
  cases hr

/-- Witness for `runnable_deps_finished` at the initial state of
`cexGraph`. -/
theorem runnable_deps_finished_witness :
    (initEState cexGraph 0 = SStatus.runnable →
      ∀ d ∈ cexGraph.deps 0, initEState cexGraph d = SStatus.finished)
    ∧ (cexGraph.deps 0 ≠ ∅ →
        ¬ (∀ d ∈ cexGraph.deps 0, initEState cexGraph d = SStatus.finished) →
        initEState cexGraph 0 ≠ SStatus.runnable) :=
  runnable_deps_finished cexGraph (initEState cexGraph) 0 Relation.ReflTransGen.refl

/-- `depFailed` is absorbing: no engine transition ever moves a
`depFailed` step to any other status (in particular it is never
dispatched again). -/
lemma depFailed_persists_step {n : Nat} (g : StepGraph n) (σ σ2 : EState n)
    (u : Fin n) (hstep : EngineStep g σ σ2) (h : σ u = SStatus.depFailed) :
    σ2 u = SStatus.depFailed := by
  cases hstep with
  | dispatch t ht =>
    have hut : u ≠ t := by
      intro hcontra
      rw [hcontra, ht] at h
      cases h
    rw [Function.update_apply, if_neg hut]
    exact h
  | succeed t ht =>
    have hut : u ≠ t := by
      intro hcontra
      rw [hcontra, ht] at h
      cases h
    have hupd : Function.update σ t SStatus.finished u = SStatus.depFailed := by
      rw [Function.update_apply, if_neg hut]
      exact h
    unfold promote
    rw [if_neg, hupd]
    rw [hupd]
    simp
  | fail t ht =>
    have hut : u ≠ t := by
      intro hcontra
      rw [hcontra, ht] at h
      cases h
    unfold applyFail
    rw [if_neg hut]
    by_cases hc : u ∈ rdepsClosure g t
    · rw [if_pos hc]
    · rw [if_neg hc]
      exact h

lemma depFailed_persists {n : Nat} (g : StepGraph n) (σ σ2 : EState n)
    (u : Fin n) (hrest : Relation.ReflTransGen (EngineStep g) σ σ2)
    (h : σ u = SStatus.depFailed) : σ2 u = SStatus.depFailed := by
  induction hrest with
  | refl => exact h
  | tail _ hstep ih => exact depFailed_persists_step g _ _ u hstep ih

/-- Modelled from the spec: `getDependents` (declared state.hh line 237)
collects, for the failing step, the builds attached to every step of its
`rdeps` closure; `failStep` propagates the failure to all of them. -/
def dependentBuilds {n : Nat} (g : StepGraph n) (builds : Fin n → Finset Nat)
    (t : Fin n) : Finset Nat :=
  (rdepsClosure g t).biUnion builds

/-- C5: when a building step `t` fails definitively in a reachable
state, the one-pass downward propagation (`applyFail`) marks every step
transitively reachable from `t` via `rdeps` as `depFailed`; that status
persists through every later engine transition, so such a step is never
dispatched (dispatch requires `runnable`); and the failure is propagated
to every build in `t`'s own `builds` set, which is contained in the
builds collected over the `rdeps` closure. -/
theorem failStep_propagates {n : Nat} (g : StepGraph n)
    (builds : Fin n → Finset Nat) (σ σ2 : EState n) (t u : Fin n)
    (hre : EngineReachable g σ) (hb : σ t = SStatus.building)
    (hu : Relation.ReflTransGen (rdepRel g) t u) (hne : u ≠ t)
    (hrest : Relation.ReflTransGen (EngineStep g) (applyFail g t σ) σ2) :
    applyFail g t σ u = SStatus.depFailed
    ∧ σ2 u = SStatus.depFailed
    ∧ builds t ⊆ dependentBuilds g builds t := by
  have hmem : u ∈ rdepsClosure g t := reach_subset_rdepsClosure g hu
  have h1 : applyFail g t σ u = SStatus.depFailed := by
    unfold applyFail
    rw [if_neg hne, if_pos hmem]
  refine ⟨h1, depFailed_persists g _ σ2 u hrest h1, ?_⟩
  intro b hb2
  unfold dependentBuilds
  rw [Finset.mem_biUnion]
  exact ⟨t, self_mem_rdepsClosure g t, hb2⟩

/-- The two-step graph used for the C5 witness: step 1 depends on
step 0. -/
def chainGraph : StepGraph 2 := ⟨fun u => if u = 1 then {0} else ∅⟩

/-- Witness for `failStep_propagates`: in the two-step chain, after
dispatching step 0, its failure marks its dependent step 1 `depFailed`. -/
theorem failStep_propagates_witness :
    EngineReachable chainGraph
        (Function.update (initEState chainGraph) 0 SStatus.building)
    ∧ (Function.update (initEState chainGraph) 0 SStatus.building) 0
        = SStatus.building
    ∧ applyFail chainGraph 0
        (Function.update (initEState chainGraph) 0 SStatus.building) 1
        = SStatus.depFailed
    ∧ applyFail chainGraph 0
        (Function.update (initEState chainGraph) 0 SStatus.building) 1
        = SStatus.depFailed
    ∧ (fun _ : Fin 2 => ({7} : Finset Nat)) 0
        ⊆ dependentBuilds chainGraph (fun _ => {7}) 0 := by
  have hinit : initEState chainGraph 0 = SStatus.runnable := by
    unfold initEState chainGraph
    simp
  have hre : EngineReachable chainGraph
      (Function.update (initEState chainGraph) 0 SStatus.building) :=
    Relation.ReflTransGen.single
      (EngineStep.dispatch (initEState chainGraph) 0 hinit)
  have hb : (Function.update (initEState chainGraph) 0 SStatus.building) 0
      = SStatus.building := by
    rw [Function.update_apply, if_pos rfl]
  have hedge : Relation.ReflTransGen (rdepRel chainGraph) 0 1 :=
    Relation.ReflTransGen.single (by unfold rdepRel chainGraph; simp)
  have hmain := failStep_propagates chainGraph (fun _ => {7}) _ _ 0 1 hre hb
    hedge (by decide) Relation.ReflTransGen.refl
  exact ⟨hre, hb, hmain.1, hmain.2.1, hmain.2.2⟩

end Hydra

namespace Hydra

/-! ### Machine reservations (`State::MachineReservation`, state.hh lines
401-408).  The constructor and destructor bodies are not in the
repository snapshot; acquisition and release are modelled from the spec
(§4.4): "a step may have at most one live reservation at a time
(enforced by checking/setting a per-step reserved marker under the step
lock before capacity is claimed on the machine)"; release "is
unconditional and happens on every exit path". -/

/-- Reservation-tracking state: the per-step reserved marker and the
list of live reservations (step paired with the machine it will run
on). -/
structure ResState (n : Nat) where
  reserved : Fin n → Bool
  live : List (Fin n × Nat)

/-- No step reserved, no live reservation. -/
def initResState (n : Nat) : ResState n :=
  { reserved := fun _ => false, live := [] }

/-- Modelled from the spec (§4.4): `reserve` checks the per-step marker
and sets it before the reservation becomes live; `release` drops a live
reservation and clears the marker. -/
inductive ResStep {n : Nat} : ResState n → ResState n → Prop where
  | reserve (σ : ResState n) (s : Fin n) (m : Nat) (h : σ.reserved s = false) :
      ResStep σ { reserved := Function.update σ.reserved s true,
                  live := (s, m) :: σ.live }
  | release (σ : ResState n) (s : Fin n) (m : Nat) (h : (s, m) ∈ σ.live) :
      ResStep σ { reserved := Function.update σ.reserved s false,
                  live := σ.live.erase (s, m) }

/-- Reservation states reachable from start-up. -/
def ResReachable {n : Nat} (σ : ResState n) : Prop :=
  Relation.ReflTransGen ResStep (initResState n) σ

/-- Number of live reservations held for step `s`. -/
def liveCount {n : Nat} (σ : ResState n) (s : Fin n) : Nat :=
  σ.live.countP (fun p => p.1 = s)

/-- The reservation invariant: a step has a live reservation only while
its reserved marker is set, and never more than one. -/
def ResInv {n : Nat} (σ : ResState n) : Prop :=
  ∀ s, liveCount σ s ≤ if σ.reserved s then 1 else 0

lemma resInv_step {n : Nat} (σ σ2 : ResState n) (hstep : ResStep σ σ2)
    (hinv : ResInv σ) : ResInv σ2 := by
  cases hstep with
  | reserve s m h =>
    intro t
    have hcons : liveCount ⟨Function.update σ.reserved s true, (s, m) :: σ.live⟩ t
        = liveCount σ t + if s = t then 1 else 0 := by
      unfold liveCount
      rw [List.countP_cons]
      by_cases hst : s = t
      · rw [if_pos hst]
        simp [hst]
      · rw [if_neg hst]
        simp [hst]
    by_cases hts : t = s
    · subst hts
      have h0 : liveCount σ t = 0 := by
        have hb := hinv t
        rw [h] at hb
        simpa using hb
      rw [hcons, h0, if_pos rfl]
      simp [Function.update_apply]
    · have hst : s ≠ t := fun hcontra => hts hcontra.symm
      rw [hcons, if_neg hst]
      have hres : Function.update σ.reserved s true t = σ.reserved t :=
        Function.update_apply σ.reserved s true t ▸ if_neg hts ▸ rfl
      simp only [hres]
      simpa using hinv t
  | release s m h =>
    intro t
    obtain ⟨l₁, l₂, hnotin, hsplit, herase⟩ := List.exists_erase_eq h
    have hold : liveCount σ t
        = (l₁.countP (fun p => p.1 = t) + l₂.countP (fun p => p.1 = t))
          + if s = t then 1 else 0 := by
      unfold liveCount
      rw [hsplit, List.countP_append, List.countP_cons]
      by_cases hst : s = t
      · rw [if_pos hst]
        simp [hst]
        omega
      · rw [if_neg hst]
        simp [hst]
    have hnew : liveCount ⟨Function.update σ.reserved s false, σ.live.erase (s, m)⟩ t
        = l₁.countP (fun p => p.1 = t) + l₂.countP (fun p => p.1 = t) := by
      unfold liveCount
      simp only
      rw [herase, List.countP_append]
    by_cases hts : t = s
    · subst hts
      have hb := hinv t
      rw [hold, if_pos rfl] at hb
      have hb1 : l₁.countP (fun p => p.1 = t) + l₂.countP (fun p => p.1 = t) = 0 := by
        split at hb <;> omega
      rw [hnew, hb1]
      exact Nat.zero_le _
    · have hst : s ≠ t := fun hcontra => hts hcontra.symm
      have hb := hinv t
      rw [hold, if_neg hst] at hb
      rw [hnew]
      have hproj : (⟨Function.update σ.reserved s false, σ.live.erase (s, m)⟩ :
          ResState n).reserved t = σ.reserved t := by
        simp [Function.update_apply, hts]
      rw [hproj]
      simpa using hb

end Hydra

namespace Hydra

lemma resInv_reachable {n : Nat} (σ : ResState n) (h : ResReachable σ) :
    ResInv σ := by
  induction h with
  | refl =>
    intro s
    simp [initResState, liveCount]
  | tail _ hstep ih => exact resInv_step _ _ hstep ih

/-- C3: in every reachable reservation state, at most one live
`MachineReservation` exists for any step; a step with a live reservation
has its reserved marker set; and no transition can create a second
reservation for an already-reserved step (creating a reservation for a
reserved step is impossible). -/
theorem reservation_unique {n : Nat} (σ : ResState n) (s : Fin n)
    (hre : ResReachable σ) :
    liveCount σ s ≤ 1
    ∧ (1 ≤ liveCount σ s → σ.reserved s = true)
    ∧ (σ.reserved s = true → ∀ (m : Nat) (σ2 : ResState n),
        ResStep σ σ2 → σ2.live ≠ (s, m) :: σ.live) := by
  have hinv := resInv_reachable σ hre
  refine ⟨?_, ?_, ?_⟩
  · have hb := hinv s
    split at hb <;> omega
  · intro hc
    have hb := hinv s
    by_cases hr : σ.reserved s = true
    · exact hr
    · rw [if_neg hr] at hb
      omega
  · intro hres m σ2 hstep heq
    cases hstep with
    | reserve s2 m2 h2 =>
      simp only [List.cons.injEq, Prod.mk.injEq] at heq
      obtain ⟨⟨hs2, -⟩, -⟩ := heq
      rw [hs2, hres] at h2
      cases h2
    | release s2 m2 h2 =>
      have hlen : (σ.live.erase (s2, m2)).length = σ.live.length - 1 :=
        List.length_erase_of_mem h2
      have hpos : 1 ≤ σ.live.length := List.length_pos.mpr (List.ne_nil_of_mem h2)
      have hlen2 : ((s, m) :: σ.live).length = σ.live.length + 1 := rfl
      have hle : (σ.live.erase (s2, m2)).length = ((s, m) :: σ.live).length :=
        congrArg List.length heq
      omega

/-- Witness for `reservation_unique` at the initial reservation state. -/
theorem reservation_unique_witness :
    liveCount (initResState 1) 0 ≤ 1
    ∧ (1 ≤ liveCount (initResState 1) 0 → (initResState 1).reserved 0 = true)
    ∧ ((initResState 1).reserved 0 = true → ∀ (m : Nat) (σ2 : ResState 1),
        ResStep (initResState 1) σ2 → σ2.live ≠ (0, m) :: (initResState 1).live) :=
  reservation_unique (initResState 1) 0 Relation.ReflTransGen.refl

end Hydra

namespace Hydra

/-! ### The dispatcher scan (`State::doDispatch`, declared state.hh line
546; priority fields `Step::State::highestGlobalPriority` /
`highestLocalPriority` / `lowestBuildID`, state.hh lines 204-213).
The body of `doDispatch` is not in the repository snapshot; the scan is
modelled from the spec (§4.3): runnable steps are visited in priority
order and each is matched against an idle machine satisfying
`supportsStep` with spare capacity, atomically claiming capacity. -/

/-- A runnable step as the dispatcher sees it: its identity and
capability key plus the three priority fields of `Step::State`. -/
structure DStep where
  id : Nat
  spec : StepSpec
  highestGlobalPriority : Int
  highestLocalPriority : Int
  lowestBuildID : Nat
deriving DecidableEq, Repr

/-- A machine as the dispatcher sees it: capability sets plus capacity
(`nix::Machine::maxJobs`, `Machine::State::currentJobs`). -/
structure DMachine where
  id : Nat
  spec : MachineSpec
  maxJobs : Nat
  currentJobs : Nat
deriving DecidableEq, Repr

/-- Modelled from the spec (§4.3): the dispatcher's total priority
order — `highestGlobalPriority` descending, then `highestLocalPriority`
descending, then `lowestBuildID` ascending. -/
def stepPrio (a b : DStep) : Prop :=
  b.highestGlobalPriority < a.highestGlobalPriority
  ∨ (a.highestGlobalPriority = b.highestGlobalPriority
      ∧ (b.highestLocalPriority < a.highestLocalPriority
          ∨ (a.highestLocalPriority = b.highestLocalPriority
              ∧ a.lowestBuildID ≤ b.lowestBuildID)))

instance stepPrioDecidable : DecidableRel stepPrio := fun a b => by
  unfold stepPrio
  infer_instance

instance stepPrioTotal : IsTotal DStep stepPrio := by
  constructor
  intro a b
  unfold stepPrio
  omega

instance stepPrioTrans : IsTrans DStep stepPrio := by
  constructor
  intro a b c hab hbc
  unfold stepPrio at hab hbc ⊢
  omega

/-- The machine can take the step now: it satisfies `supportsStep` and
has spare capacity. -/
def machineFree (thisSystem : String) (m : DMachine) (s : DStep) : Bool :=
  supportsStep thisSystem m.spec s.spec ∧ m.currentJobs < m.maxJobs

/-- Modelled from the spec (§4.3): find the first idle machine
satisfying the capability check with spare capacity and claim one unit
of its capacity; `none` when no machine can take the step. -/
def tryAssign (thisSystem : String) :
    List DMachine → DStep → Option (Nat × List DMachine)
  | [], _ => none
  | m :: ms, s =>
    if machineFree thisSystem m s then
      some (m.id, { m with currentJobs := m.currentJobs + 1 } :: ms)
    else
      match tryAssign thisSystem ms s with
      | none => none
      | some (mid, ms2) => some (mid, m :: ms2)

/-- Modelled from the spec (§4.3): one dispatcher pass over a list of
runnable steps, reserving machines greedily in list order; returns the
`(step id, machine id)` pairs started and the final machine pool. -/
def scanGo (thisSystem : String) :
    List DMachine → List DStep → List (Nat × Nat) × List DMachine
  | ms, [] => ([], ms)
  | ms, s :: rest =>
    match tryAssign thisSystem ms s with
    | some (mid, ms2) =>
      let r := scanGo thisSystem ms2 rest
      ((s.id, mid) :: r.1, r.2)
    | none => scanGo thisSystem ms rest

/-- `State::doDispatch`, modelled from the spec (§4.3): sort the
runnable snapshot by the priority order, then scan it against the
machine pool. -/
def doDispatch (thisSystem : String) (machines : List DMachine)
    (steps : List DStep) : List (Nat × Nat) × List DMachine :=
  scanGo thisSystem machines (List.insertionSort stepPrio steps)

end Hydra

namespace Hydra

/-- During a scan a machine keeps its identity, capabilities and
capacity limit, while its job count only grows. -/
def MachLE (a b : DMachine) : Prop :=
  a.id = b.id ∧ a.spec = b.spec ∧ a.maxJobs = b.maxJobs
    ∧ a.currentJobs ≤ b.currentJobs

lemma machLE_refl (a : DMachine) : MachLE a a :=
  ⟨rfl, rfl, rfl, le_refl _⟩

lemma machLE_trans {a b c : DMachine} (h1 : MachLE a b) (h2 : MachLE b c) :
    MachLE a c :=
  ⟨h1.1.trans h2.1, h1.2.1.trans h2.2.1, h1.2.2.1.trans h2.2.2.1,
    h1.2.2.2.trans h2.2.2.2⟩

lemma forall₂_machLE_refl (l : List DMachine) : List.Forall₂ MachLE l l := by
  induction l with
  | nil => exact List.Forall₂.nil
  | cons a l ih => exact List.Forall₂.cons (machLE_refl a) ih

lemma forall₂_machLE_trans {l1 l2 l3 : List DMachine}
    (h1 : List.Forall₂ MachLE l1 l2) (h2 : List.Forall₂ MachLE l2 l3) :
    List.Forall₂ MachLE l1 l3 := by
  induction h1 generalizing l3 with
  | nil =>
    cases h2
    exact List.Forall₂.nil
  | cons hab htail ih =>
    cases h2 with
    | cons hbc htail2 => exact List.Forall₂.cons (machLE_trans hab hbc) (ih htail2)

lemma forall₂_machLE_mem {l1 l2 : List DMachine}
    (h : List.Forall₂ MachLE l1 l2) {b : DMachine} (hb : b ∈ l2) :
    ∃ a ∈ l1, MachLE a b := by
  induction h with
  | nil => cases hb
  | cons hab htail ih =>
    rcases List.mem_cons.mp hb with hb1 | hb2
    · exact ⟨_, List.mem_cons_self _ _, hb1 ▸ hab⟩
    · obtain ⟨a, ha, hle⟩ := ih hb2
      exact ⟨a, List.mem_cons_of_mem _ ha, hle⟩

/-- A machine unable to take a step stays unable as its job count
grows. -/
lemma machineFree_mono {thisSystem : String} {a b : DMachine} {s : DStep}
    (hle : MachLE a b) (h : machineFree thisSystem a s = false) :
    machineFree thisSystem b s = false := by
  obtain ⟨-, hspec, hmax, hjobs⟩ := hle
  unfold machineFree at h ⊢
  rw [← hspec, ← hmax]
  simp only [Bool.decide_and, Bool.and_eq_false_iff] at h ⊢
  rcases h with h | h
  · exact Or.inl h
  · right
    simp only [decide_eq_false_iff_not, not_lt] at h ⊢
    omega

lemma tryAssign_some_machLE {thisSystem : String} {s : DStep} :
    ∀ {ms ms2 : List DMachine} {mid : Nat},
      tryAssign thisSystem ms s = some (mid, ms2) →
      List.Forall₂ MachLE ms ms2 := by
  intro ms
  induction ms with
  | nil => intro ms2 mid h; cases h
  | cons m ms ih =>
    intro ms2 mid h
    unfold tryAssign at h
    by_cases hfree : machineFree thisSystem m s = true
    · rw [if_pos hfree] at h
      injection h with hpair
      have hsnd : ({ m with currentJobs := m.currentJobs + 1 } :: ms) = ms2 :=
        congrArg Prod.snd hpair
      rw [← hsnd]
      exact List.Forall₂.cons ⟨rfl, rfl, rfl, Nat.le_succ _⟩ (forall₂_machLE_refl ms)
    · rw [if_neg hfree] at h
      cases htry : tryAssign thisSystem ms s with
      | none => rw [htry] at h; cases h
      | some p =>
        obtain ⟨mid2, ms3⟩ := p
        rw [htry] at h
        injection h with hpair
        have hsnd : (m :: ms3) = ms2 := congrArg Prod.snd hpair
        rw [← hsnd]
        exact List.Forall₂.cons (machLE_refl m) (ih htry)

/-- When `tryAssign` fails, no machine in the pool can take the step. -/
lemma tryAssign_none {thisSystem : String} {s : DStep} :
    ∀ {ms : List DMachine}, tryAssign thisSystem ms s = none →
      ∀ m ∈ ms, machineFree thisSystem m s = false := by
  intro ms
  induction ms with
  | nil => intro _ m hm; cases hm
  | cons m0 ms ih =>
    intro h m hm
    unfold tryAssign at h
    by_cases hfree : machineFree thisSystem m0 s = true
    · rw [if_pos hfree] at h
      cases h
    · rw [if_neg hfree] at h
      rcases List.mem_cons.mp hm with hm0 | hmem
      · rw [hm0]
        simpa using hfree
      · cases htry : tryAssign thisSystem ms s with
        | none => exact ih htry m hmem
        | some p =>
          obtain ⟨mid2, ms3⟩ := p
          rw [htry] at h
          cases h

end Hydra

namespace Hydra

lemma scanGo_cons_some (thisSystem : String) (ms : List DMachine) (s : DStep)
    (rest : List DStep) (mid : Nat) (ms2 : List DMachine)
    (h : tryAssign thisSystem ms s = some (mid, ms2)) :
    scanGo thisSystem ms (s :: rest)
      = ((s.id, mid) :: (scanGo thisSystem ms2 rest).1,
         (scanGo thisSystem ms2 rest).2) := by
  show (match tryAssign thisSystem ms s with
    | some (mid, ms2) =>
      ((s.id, mid) :: (scanGo thisSystem ms2 rest).1, (scanGo thisSystem ms2 rest).2)
    | none => scanGo thisSystem ms rest) = _
  rw [h]

lemma scanGo_cons_none (thisSystem : String) (ms : List DMachine) (s : DStep)
    (rest : List DStep) (h : tryAssign thisSystem ms s = none) :
    scanGo thisSystem ms (s :: rest) = scanGo thisSystem ms rest := by
  show (match tryAssign thisSystem ms s with
    | some (mid, ms2) =>
      ((s.id, mid) :: (scanGo thisSystem ms2 rest).1, (scanGo thisSystem ms2 rest).2)
    | none => scanGo thisSystem ms rest) = _
  rw [h]

lemma scanGo_machLE (thisSystem : String) :
    ∀ (steps : List DStep) (ms : List DMachine),
      List.Forall₂ MachLE ms (scanGo thisSystem ms steps).2 := by
  intro steps
  induction steps with
  | nil => intro ms; exact forall₂_machLE_refl ms
  | cons s rest ih =>
    intro ms
    cases htry : tryAssign thisSystem ms s with
    | none =>
      rw [scanGo_cons_none thisSystem ms s rest htry]
      exact ih ms
    | some p =>
      obtain ⟨mid, ms2⟩ := p
      rw [scanGo_cons_some thisSystem ms s rest mid ms2 htry]
      exact forall₂_machLE_trans (tryAssign_some_machLE htry) (ih ms2)

/-- If a step in the scanned list is not started by the scan, then at
the end of the scan every machine in the pool is unable to take it. -/
lemma scanGo_unstarted_full (thisSystem : String) (H : DStep) :
    ∀ (steps : List DStep) (ms : List DMachine), H ∈ steps →
      H.id ∉ (scanGo thisSystem ms steps).1.map Prod.fst →
      ∀ m2 ∈ (scanGo thisSystem ms steps).2,
        machineFree thisSystem m2 H = false := by
  intro steps
  induction steps with
  | nil => intro ms hmem; cases hmem
  | cons s rest ih =>
    intro ms hmem hnot m2 hm2
    by_cases hHs : H = s
    · cases htry : tryAssign thisSystem ms s with
      | some p =>
        obtain ⟨mid, ms2⟩ := p
        exfalso
        apply hnot
        rw [scanGo_cons_some thisSystem ms s rest mid ms2 htry]
        rw [List.map_cons, hHs]
        exact List.mem_cons_self _ _
      | none =>
        rw [scanGo_cons_none thisSystem ms s rest htry] at hm2
        have hall := tryAssign_none htry
        have hev := scanGo_machLE thisSystem rest ms
        obtain ⟨a, ha, hle⟩ := forall₂_machLE_mem hev hm2
        have hfa := hall a ha
        rw [← hHs] at hfa
        exact machineFree_mono hle hfa
    · have hmem2 : H ∈ rest := by
        rcases List.mem_cons.mp hmem with h | h
        · exact absurd h hHs
        · exact h
      cases htry : tryAssign thisSystem ms s with
      | some p =>
        obtain ⟨mid, ms2⟩ := p
        rw [scanGo_cons_some thisSystem ms s rest mid ms2 htry] at hnot hm2
        rw [List.map_cons] at hnot
        have hnot2 : H.id ∉ (scanGo thisSystem ms2 rest).1.map Prod.fst :=
          fun hc => hnot (List.mem_cons_of_mem _ hc)
        exact ih ms2 hmem2 hnot2 m2 hm2
      | none =>
        rw [scanGo_cons_none thisSystem ms s rest htry] at hnot hm2
        exact ih ms hmem2 hnot m2 hm2

end Hydra

namespace Hydra

/-- C6 (amended): the dispatcher considers the runnable snapshot in the
total order `highestGlobalPriority` descending, `highestLocalPriority`
descending, `lowestBuildID` ascending; and when two runnable steps have
distinct `highestGlobalPriority` and the scan starts the lower-priority
one while the higher-priority one goes unstarted (hence remains
runnable), every machine supporting the higher-priority step is at full
capacity at the end of the scan — capacity at scan time was consumed by
steps earlier in the priority order. -/
theorem dispatch_priority_order (thisSystem : String)
    (machines : List DMachine) (steps : List DStep) (H L : DStep)
    (hH : H ∈ steps) (hL : L ∈ steps)
    (hprio : L.highestGlobalPriority < H.highestGlobalPriority)
    (hLstart : L.id ∈ (doDispatch thisSystem machines steps).1.map Prod.fst)
    (hHnot : H.id ∉ (doDispatch thisSystem machines steps).1.map Prod.fst) :
    List.Sorted stepPrio (List.insertionSort stepPrio steps)
    ∧ ∀ m2 ∈ (doDispatch thisSystem machines steps).2,
        supportsStep thisSystem m2.spec H.spec = true →
        m2.maxJobs ≤ m2.currentJobs := by
  constructor
  · exact List.sorted_insertionSort stepPrio steps
  · intro m2 hm2 hsup
    unfold doDispatch at hHnot hm2
    have hmemSorted : H ∈ List.insertionSort stepPrio steps :=
      (List.perm_insertionSort stepPrio steps).mem_iff.mpr hH
    have hfull := scanGo_unstarted_full thisSystem H
      (List.insertionSort stepPrio steps) machines hmemSorted hHnot m2 hm2
    unfold machineFree at hfull
    have hnp : ¬ (supportsStep thisSystem m2.spec H.spec = true
        ∧ m2.currentJobs < m2.maxJobs) := of_decide_eq_false hfull
    have hnlt : ¬ m2.currentJobs < m2.maxJobs := fun hlt => hnp ⟨hsup, hlt⟩
    omega

/-- The concrete dispatcher instance settling C6: three runnable steps
with priorities 20 > 10 > 1 and two one-slot machines.  Only the first
machine has the feature `big` required by the priority-10 step. -/
def cexSteps : List DStep :=
  [⟨0, ⟨"x", [], false⟩, 20, 0, 1⟩,
   ⟨1, ⟨"x", ["big"], false⟩, 10, 0, 2⟩,
   ⟨2, ⟨"x", [], false⟩, 1, 0, 3⟩]

/-- The machine pool of the C6 instance. -/
def cexMachines : List DMachine :=
  [⟨0, ⟨["x"], [], ["big"]⟩, 1, 0⟩,
   ⟨1, ⟨["x"], [], []⟩, 1, 0⟩]

/-- The priority-10 step of the C6 instance. -/
def cexH : DStep := ⟨1, ⟨"x", ["big"], false⟩, 10, 0, 2⟩

/-- The priority-1 step of the C6 instance. -/
def cexL : DStep := ⟨2, ⟨"x", [], false⟩, 1, 0, 3⟩

/-- Counterexample to C6 as stated: with "a matching idle machine exists
at scan time" read as idle at the start of the scan, the guarantee
fails.  In the concrete instance the priority-20 step takes the only
machine matching the priority-10 step H during the scan, H goes
unstarted, and the priority-1 step L is still started on the other
machine — even though a machine matching H was idle at scan time. -/
theorem dispatch_priority_counterexample :
    ¬ (∀ (thisSystem : String) (machines : List DMachine)
        (steps : List DStep) (H L : DStep),
        H ∈ steps → L ∈ steps →
        L.highestGlobalPriority < H.highestGlobalPriority →
        (∃ mm ∈ machines, machineFree thisSystem mm H = true) →
        L.id ∈ (doDispatch thisSystem machines steps).1.map Prod.fst →
        H.id ∈ (doDispatch thisSystem machines steps).1.map Prod.fst) := by
  intro hclaim
  have h := hclaim "x" cexMachines cexSteps cexH cexL (by decide)
    (by decide) (by decide) (by decide) (by decide)
  exact absurd h (by decide)

/-- Witness for `dispatch_priority_order` at the concrete C6 instance. -/
theorem dispatch_priority_order_witness :
    (cexH ∈ cexSteps)
    ∧ (cexL ∈ cexSteps)
    ∧ (cexL.highestGlobalPriority < cexH.highestGlobalPriority)
    ∧ (cexL.id ∈ (doDispatch "x" cexMachines cexSteps).1.map Prod.fst)
    ∧ (cexH.id ∉ (doDispatch "x" cexMachines cexSteps).1.map Prod.fst)
    ∧ (List.Sorted stepPrio (List.insertionSort stepPrio cexSteps)
        ∧ ∀ m2 ∈ (doDispatch "x" cexMachines cexSteps).2,
            supportsStep "x" m2.spec cexH.spec = true →
            m2.maxJobs ≤ m2.currentJobs) :=
  ⟨by decide, by decide, by decide, by decide, by decide,
    dispatch_priority_order "x" cexMachines cexSteps cexH cexL (by decide)
      (by decide) (by decide) (by decide) (by decide)⟩

end Hydra

namespace Hydra

/-! ### The `builds` field of a step (state.hh lines 191-192) -/

/-- A queued build as ingestion sees it: its id and the step (by index)
that is its top-level derivation. -/
structure BuildRec where
  id : Nat
  toplevel : Nat
deriving DecidableEq, Repr

/-- Ingestion state: the builds ingested so far and, per step, the
contents of the `Step::State::builds` field. -/
structure IngState where
  buildsIngested : List BuildRec
  stepBuilds : Nat → List Nat

/-- Start-up: nothing ingested. -/
def initIngState : IngState :=
  { buildsIngested := [], stepBuilds := fun _ => [] }

/-- Modelled from the spec: the bodies of `State::createStep` and
`State::getQueuedBuilds` are not in the repository snapshot.  The
source comment on the field (state.hh lines 191-192) pins its content:
"Builds that have this step as the top-level derivation" — so ingesting
a build records it in the `builds` field of its top-level step only;
dependency steps are wired through `deps`/`rdeps`, not through
`builds`.  (§4.1 of the spec attaches the build's *jobset*, not the
build, to every step of the closure.) -/
def ingestBuild (σ : IngState) (b : BuildRec) : IngState :=
  { buildsIngested := b :: σ.buildsIngested,
    stepBuilds := fun s =>
      if s = b.toplevel then b.id :: σ.stepBuilds s else σ.stepBuilds s }

/-- Ingestion transitions: any build may arrive. -/
inductive IngStep : IngState → IngState → Prop where
  | ingest (σ : IngState) (b : BuildRec) : IngStep σ (ingestBuild σ b)

/-- Ingestion states reachable from start-up. -/
def IngReachable (σ : IngState) : Prop :=
  Relation.ReflTransGen IngStep initIngState σ

/-- One dependency edge of the derivation graph: `t` is a direct
dependency of `s`. -/
def depEdge (g : Nat → List Nat) (s t : Nat) : Prop := t ∈ g s

/-- The two-step derivation graph used to settle C8: step 0 (the
top-level derivation) depends on step 1. -/
def cexDeps : Nat → List Nat := fun s => if s = 0 then [1] else []

/-- Counterexample to C8 as stated: after ingesting build 7 whose
top-level derivation is step 0 and whose closure includes the dependency
step 1, the `builds` field of step 1 is empty — the field holds only
builds that have the step as their top-level derivation (state.hh lines
191-192), not every build whose closure includes it. -/
theorem builds_field_counterexample :
    ¬ (∀ σ : IngState, IngReachable σ → ∀ b ∈ σ.buildsIngested, ∀ s : Nat,
        Relation.ReflTransGen (depEdge cexDeps) b.toplevel s →
        b.id ∈ σ.stepBuilds s) := by
  intro hclaim
  have hre : IngReachable (ingestBuild initIngState ⟨7, 0⟩) :=
    Relation.ReflTransGen.single (IngStep.ingest initIngState ⟨7, 0⟩)
  have hedge : Relation.ReflTransGen (depEdge cexDeps) 0 1 :=
    Relation.ReflTransGen.single (by unfold depEdge cexDeps; simp)
  have hmem : (⟨7, 0⟩ : BuildRec) ∈ (ingestBuild initIngState ⟨7, 0⟩).buildsIngested := by
    simp [ingestBuild]
  have h := hclaim (ingestBuild initIngState ⟨7, 0⟩) hre ⟨7, 0⟩ hmem 1 hedge
  simp [ingestBuild, initIngState] at h

lemma ingestBuild_stepBuilds (σ : IngState) (b : BuildRec) (s : Nat) :
    (ingestBuild σ b).stepBuilds s
      = if s = b.toplevel then b.id :: σ.stepBuilds s else σ.stepBuilds s := rfl

/-- C8 (amended): in every reachable ingestion state, a step's `builds`
field holds exactly the builds for which the step is the top-level
derivation; builds whose closure merely includes the step are not in the
field (they are found by traversing the `rdeps` closure, as
`getDependents` does). -/
theorem builds_field_toplevel (σ : IngState) (hre : IngReachable σ)
    (s bid : Nat) :
    bid ∈ σ.stepBuilds s ↔
      ∃ b ∈ σ.buildsIngested, b.id = bid ∧ b.toplevel = s := by
  induction hre with
  | refl => simp [initIngState]
  | tail _ hstep ih =>
    cases hstep with
    | ingest b =>
      constructor
      · intro hmem
        rw [ingestBuild_stepBuilds] at hmem
        by_cases hs : s = b.toplevel
        · rw [if_pos hs] at hmem
          rcases List.mem_cons.mp hmem with hbid | hold
          · exact ⟨b, List.mem_cons_self _ _, hbid.symm, hs.symm⟩
          · obtain ⟨b2, hb2, hid, htop⟩ := ih.mp hold
            exact ⟨b2, List.mem_cons_of_mem _ hb2, hid, htop⟩
        · rw [if_neg hs] at hmem
          obtain ⟨b2, hb2, hid, htop⟩ := ih.mp hmem
          exact ⟨b2, List.mem_cons_of_mem _ hb2, hid, htop⟩
      · rintro ⟨b2, hb2, hid, htop⟩
        rw [ingestBuild_stepBuilds]
        rcases List.mem_cons.mp hb2 with hbb | hold
        · subst hbb
          rw [if_pos htop.symm, ← hid]
          exact List.mem_cons_self _ _
        · have hold2 := ih.mpr ⟨b2, hold, hid, htop⟩
          by_cases hs : s = b.toplevel
          · rw [if_pos hs]
            exact List.mem_cons_of_mem _ hold2
          · rw [if_neg hs]
            exact hold2

/-- Witness for `builds_field_toplevel` after ingesting one build. -/
theorem builds_field_toplevel_witness :
    7 ∈ (ingestBuild initIngState ⟨7, 0⟩).stepBuilds 0 ↔
      ∃ b ∈ (ingestBuild initIngState ⟨7, 0⟩).buildsIngested,
        b.id = 7 ∧ b.toplevel = 0 :=
  builds_field_toplevel (ingestBuild initIngState ⟨7, 0⟩)
    (Relation.ReflTransGen.single (IngStep.ingest initIngState ⟨7, 0⟩)) 0 7

end Hydra
